import Mathlib

/-!
Verification development for the progressive response delivery coordinator of
`src/slack_bot.py`.

The coordinator lives in the event handler `handle_mention` (lines 165-240):
after the smalltalk fast path, the handler creates the shared record
`done = {"flag": False}` and `placeholder = {"ts": None}` (lines 186-187),
arms two `threading.Timer`s for the ephemeral "working on it" notice and the
public threaded placeholder (lines 215-216), computes the answer, and then
finalizes (lines 225-240).

We embed this as a small-step interleaving semantics.  One request spawns
three units of execution:
* the ephemeral-notice timer callback `send_ephemeral` (lines 189-199),
* the placeholder timer callback `send_placeholder` (lines 201-212),
* the main thread, which computes the answer and runs the finalization code
  (lines 218-240).

Each callback is split at the points where another thread can interleave: the
read of `done["flag"]` (the check) and the subsequent chat-transport call (the
act) are separate atomic steps, exactly because CPython releases the
interpreter lock between them.  A schedule is a list of thread identifiers; a
run executes the threads' next steps in that order.  Chat-transport outcomes
(success or raised exception) are oracle booleans in a per-request `Config`.

The smalltalk fast path `smalltalk_reply` (lines 76-96) and the document
context budget of `ask` (lines 137-145) are embedded directly as functions;
Python strings are modelled as `List Char` where character counts matter
(Python `len`/slicing count code points, as `List.length`/`List.take` do).
-/

namespace SlackBot

/-- Identifiers of the three units of execution of one request: the ephemeral
notice timer, the placeholder timer, and the main thread (answer computation
followed by the finalization code). -/
inductive Tid where
  | eph
  | pl
  | main
  deriving DecidableEq

/-- User-visible side effects and state marks of one coordinator run, in the
order in which they happen.  Events carry the Slack call they model. -/
inductive Event where
  /-- successful `client.chat_postEphemeral` by the notice timer (line 192) -/
  | ephSent
  /-- failed `chat_postEphemeral`, logged and swallowed (lines 198-199) -/
  | ephFail
  /-- successful threaded placeholder `say`, recording handle `t` into
      `placeholder["ts"]` (lines 204-210) -/
  | placePosted (t : Nat)
  /-- failed placeholder post, logged and swallowed (lines 211-212);
      `placeholder["ts"]` stays `None` -/
  | placeFail
  /-- the finalizer writes `done["flag"] = True` (line 225) -/
  | finalized
  /-- successful `client.chat_update` of placeholder `t` with the final
      text (line 229) -/
  | updateOk (t : Nat) (txt : String)
  /-- failed `chat_update` of placeholder `t`, caught at line 235 -/
  | updateFail (t : Nat)
  /-- successful fresh threaded `say` of the final text (line 233 or 238) -/
  | postOk (txt : String)
  /-- failed fresh threaded `say` of the final text (line 233 or 238) -/
  | postFail
  /-- successful in-channel, unthreaded smalltalk `say` (line 179) -/
  | chanPost (txt : String)
  /-- failed smalltalk `say`, logged (lines 181-182) -/
  | chanFail
  deriving DecidableEq

/-- Per-request environment of `handle_mention`: truthiness of `channel` and
`user` in the inbound event, the requester id, whether `ask(text)` returns
normally (line 219) or raises (caught at line 221), the text it returns, and
the outcome of every chat-transport call the run may make. -/
structure Config where
  /-- `channel` is truthy in the event -/
  hasChannel : Bool
  /-- `user` is truthy in the event -/
  hasUser : Bool
  /-- requester id interpolated as `<@{user}>` into outgoing messages -/
  userName : String
  /-- `ask(text)` returns normally; `false` models an exception caught at
      line 221 -/
  askOk : Bool
  /-- text returned by `ask(text)` when it succeeds -/
  answer : String
  /-- outcome of `chat_postEphemeral` (line 192) -/
  ephOk : Bool
  /-- outcome of the placeholder `say` (line 204) -/
  placOk : Bool
  /-- message handle `res["ts"]` of the placeholder if it is posted -/
  tsVal : Nat
  /-- outcome of `chat_update` (line 229) -/
  updOk : Bool
  /-- outcome of the first fresh `say` of the final text (line 233) -/
  postOk : Bool
  /-- outcome of the fallback `say` of the final text (line 238) -/
  post2Ok : Bool
  deriving DecidableEq

/-- `f"<@{user}> {s}"`, the mention prefix used at lines 179 and 220. -/
def mention (u s : String) : String := "<@" ++ u ++ "> " ++ s

/-- The fixed apology substituted when `ask` raises (line 223). -/
def apologyText (u : String) : String :=
  "😬 <@" ++ u ++ "> I hit an error processing that."

/-- `final_text` as computed at lines 218-223: the mention-prefixed answer on
success, the fixed apology when `ask` raised. -/
def finalText (cfg : Config) : String :=
  if cfg.askOk then mention cfg.userName cfg.answer else apologyText cfg.userName

/-- The delivery block of the finalizer (lines 227-240), as a function of the
value of `placeholder["ts"]` it reads at line 228: if a handle was recorded,
try `chat_update`; otherwise post fresh in the thread; on an exception from
either, try one fallback threaded `say` (line 238); if that also raises, only
log (lines 239-240).  Returns the chat-transport events in order. -/
def deliver (cfg : Config) (txt : String) (ts : Option Nat) : List Event :=
  match ts with
  | some t =>
      if cfg.updOk then [Event.updateOk t txt]
      else if cfg.post2Ok then [Event.updateFail t, Event.postOk txt]
      else [Event.updateFail t, Event.postFail]
  | none =>
      if cfg.postOk then [Event.postOk txt]
      else if cfg.post2Ok then [Event.postFail, Event.postOk txt]
      else [Event.postFail, Event.postFail]

/-- The finalizer logic of lines 225-240 as a function of the delivery state
`(done flag, placeholder ts)`: it unconditionally sets the flag to `True`
(line 225) and then runs the delivery block.  Note that it never reads the
incoming flag. -/
def finalizer (cfg : Config) (st : Bool × Option Nat) :
    (Bool × Option Nat) × List Event :=
  ((true, st.2), deliver cfg (finalText cfg) st.2)

/-- Shared state of one coordinator run: the two shared dict cells
`done["flag"]` and `placeholder["ts"]` (lines 186-187), a program counter per
unit of execution (0 = before its check, 1 = checked and about to act,
2 = finished; for the main thread 0 = computing, 1 = flag written, 2 = done),
and the trace of events so far. -/
structure BotState where
  done : Bool
  ts : Option Nat
  ephPC : Nat
  plPC : Nat
  mainPC : Nat
  trace : List Event
  deriving DecidableEq

/-- Initial state of a run: `done["flag"] = False`, `placeholder["ts"] = None`
(lines 186-187). -/
def initState : BotState := ⟨false, none, 0, 0, 0, []⟩

/-- One step of `send_ephemeral` (lines 189-199).  At PC 0 it performs the
check `not done["flag"] and channel and user`; at PC 1 it performs the
`chat_postEphemeral` call, whose failure is logged and swallowed. -/
def ephStep (cfg : Config) (s : BotState) : BotState :=
  if s.ephPC = 0 then
    if !s.done && cfg.hasChannel && cfg.hasUser then
      ⟨s.done, s.ts, 1, s.plPC, s.mainPC, s.trace⟩
    else
      ⟨s.done, s.ts, 2, s.plPC, s.mainPC, s.trace⟩
  else if s.ephPC = 1 then
    ⟨s.done, s.ts, 2, s.plPC, s.mainPC,
      s.trace ++ [if cfg.ephOk then Event.ephSent else Event.ephFail]⟩
  else s

/-- One step of `send_placeholder` (lines 201-212).  At PC 0 it performs the
check `not done["flag"] and channel and user`; at PC 1 it performs the
threaded `say` and, on success, records `res["ts"]` into
`placeholder["ts"]`; on failure the handle stays unset. -/
def plStep (cfg : Config) (s : BotState) : BotState :=
  if s.plPC = 0 then
    if !s.done && cfg.hasChannel && cfg.hasUser then
      ⟨s.done, s.ts, s.ephPC, 1, s.mainPC, s.trace⟩
    else
      ⟨s.done, s.ts, s.ephPC, 2, s.mainPC, s.trace⟩
  else if s.plPC = 1 then
    if cfg.placOk then
      ⟨s.done, some cfg.tsVal, s.ephPC, 2, s.mainPC,
        s.trace ++ [Event.placePosted cfg.tsVal]⟩
    else
      ⟨s.done, s.ts, s.ephPC, 2, s.mainPC, s.trace ++ [Event.placeFail]⟩
  else s

/-- One step of the main thread.  At PC 0 the answer computation has resolved
(lines 218-223) and the finalizer writes `done["flag"] = True` (line 225); at
PC 1 it runs the delivery block (lines 227-240) against the value of
`placeholder["ts"]` it reads at that moment. -/
def mainStep (cfg : Config) (s : BotState) : BotState :=
  if s.mainPC = 0 then
    ⟨true, s.ts, s.ephPC, s.plPC, 1, s.trace ++ [Event.finalized]⟩
  else if s.mainPC = 1 then
    ⟨s.done, s.ts, s.ephPC, s.plPC, 2,
      s.trace ++ deliver cfg (finalText cfg) s.ts⟩
  else s

/-- Step of the unit of execution named by `t`. -/
def step (cfg : Config) (s : BotState) : Tid → BotState
  | Tid.eph => ephStep cfg s
  | Tid.pl => plStep cfg s
  | Tid.main => mainStep cfg s

/-- Execute a schedule (an interleaving of the three units of execution) from
a state.  A finished unit's step is a no-op, so every interleaving of the real
threads is a schedule. -/
def run (cfg : Config) : List Tid → BotState → BotState
  | [], s => s
  | t :: rest, s => run cfg rest (step cfg s t)

/-- Execute a schedule from the initial state of a request. -/
def runFrom (cfg : Config) (sched : List Tid) : BotState :=
  run cfg sched initState

/-- A run is complete when all three units of execution have finished. -/
def Complete (s : BotState) : Prop :=
  s.ephPC = 2 ∧ s.plPC = 2 ∧ s.mainPC = 2

/-- Events that deliver the final answer to the user: a successful placeholder
update or a successful fresh post of the final text.  Both come only from the
finalizer's delivery block. -/
def isDelSuccess : Event → Bool
  | Event.updateOk _ _ => true
  | Event.postOk _ => true
  | _ => false

/-- Chat-transport calls made by the finalizer's delivery block (update or
fresh post, successful or failed). -/
def isDelEvent : Event → Bool
  | Event.updateOk _ _ => true
  | Event.updateFail _ => true
  | Event.postOk _ => true
  | Event.postFail => true
  | _ => false

/-- The finalizer's delivery calls occurring in a trace, in order. -/
def delEvents (tr : List Event) : List Event := tr.filter isDelEvent

/-- Fresh-post attempts of the final text (successful or failed). -/
def isPostAttempt : Event → Bool
  | Event.postOk _ => true
  | Event.postFail => true
  | _ => false

instance (s : BotState) : Decidable (Complete s) := by
  unfold Complete; infer_instance

/-- The value of `done["flag"]` after the first `k` steps of a schedule. -/
def doneAt (cfg : Config) (sched : List Tid) (k : Nat) : Bool :=
  (run cfg (sched.take k) initState).done

/-- Delivery invariant of a run, on the main-thread program counter `m`, the
placeholder cell `ts`, and the trace `tr`: before the delivery step no
finalizer transport call appears in the trace; after it, the finalizer's
calls are exactly one run of the delivery block against some placeholder
value that, if set, was recorded by a successful placeholder post. -/
def Inv2 (cfg : Config) (m : Nat) (ts : Option Nat) (tr : List Event) : Prop :=
  (m ≤ 1 → delEvents tr = []) ∧
  (m = 2 → ∃ ts0, delEvents tr = deliver cfg (finalText cfg) ts0 ∧
      ∀ t, ts0 = some t → Event.placePosted t ∈ tr) ∧
  (∀ t, ts = some t → Event.placePosted t ∈ tr)

/-- Claim C1 as stated: in a trace, once the finalizer's write of
`done["flag"]` has happened, no ephemeral notice is sent and no placeholder
is posted. -/
def NoTimerEffectAfterFinal (tr : List Event) : Prop :=
  ∀ pre post, tr = pre ++ Event.finalized :: post →
    Event.ephSent ∉ post ∧ ∀ t, Event.placePosted t ∉ post

/-- Claim C4 as stated, on the delivery block's call list: after a failed
fresh post of the final text, no further posting attempt is made. -/
def NoRetryAfterFreshFail (tr : List Event) : Prop :=
  ∀ pre post, tr = pre ++ Event.postFail :: post →
    post.filter isPostAttempt = []

/-! ### Smalltalk fast path (lines 76-96 and 175-183) -/

/-- Python `\w` (word character), in the ASCII range the inputs use:
letters, digits, underscore. -/
def isWordChar (c : Char) : Bool := c.isAlphanum || c == '_'

/-- Whether the pattern `w` matches at the head of `t` with a word boundary
after it: `t` starts with `w` and the following character, if any, is not a
word character. -/
def matchHere (t w : List Char) : Bool :=
  t.take w.length == w &&
    match t.drop w.length with
    | [] => true
    | c :: _ => !isWordChar c

/-- Scan of `re.search(r"\b(...)\b", t)` for one alternative `w` (which starts
and ends with word characters): some position of `t` has a non-word character
(or the start of the string) before it and matches `w` with a boundary after.
`prev` is the character preceding the current position. -/
def wordSearch (w : List Char) : Option Char → List Char → Bool
  | _, [] => false
  | prev, c :: rest =>
      ((match prev with
        | none => true
        | some p => !isWordChar p) && matchHere (c :: rest) w)
      || wordSearch w (some c) rest

/-- `re.search` with a word-bounded alternation: some alternative occurs in
`t` as a whole word. -/
def hasAnyWord (t : List Char) (ws : List String) : Bool :=
  ws.any (fun w => wordSearch w.toList none t)

/-- `smalltalk_reply` (lines 76-96): lowercase the text, then try the four
word-bounded alternations in order; return the matching canned reply, or the
empty string when nothing matches. -/
def smalltalkReply (userText : String) : String :=
  let t := userText.toList.map Char.toLower
  if hasAnyWord t ["hi", "hello", "hey", "yo", "hola", "howdy"] then
    "Hi! I can help with questions about our docs. What do you need?"
  else if hasAnyWord t ["thanks", "thank you", "cheers", "appreciate"] then
    "You’re welcome! Glad it helped."
  else if hasAnyWord t ["help", "what can you do", "how do i use you", "who are you"] then
    "I answer questions using our internal docs—try asking about a process or policy."
  else if hasAnyWord t ["status", "ping", "are you up"] then
    "Online and ready. If I’m slow, I’m fetching or summarising docs."
  else ""

/-- Observable outcome of one `handle_mention` invocation: the events emitted,
whether the two escalation timers were armed (lines 215-216), and whether
`ask` was invoked (line 219). -/
structure MentionOutcome where
  events : List Event
  timersArmed : Bool
  askInvoked : Bool
  deriving DecidableEq

/-- `handle_mention` (lines 165-240): if `smalltalk_reply(text)` is nonempty
and `channel` and `user` are truthy, post the mention-prefixed reply
in-channel (no thread) and return (lines 176-183); a transport failure there
is logged.  Otherwise run the long-running flow: arm the timers, invoke
`ask`, and finalize, producing the trace of the given interleaving. -/
def handleMention (cfg : Config) (text : String) (stOk : Bool)
    (sched : List Tid) : MentionOutcome :=
  if (smalltalkReply text != "") && cfg.hasChannel && cfg.hasUser then
    ⟨[if stOk then Event.chanPost (mention cfg.userName (smalltalkReply text))
      else Event.chanFail], false, false⟩
  else
    ⟨(runFrom cfg sched).trace, true, true⟩

/-! ### Document context budget of `ask` (lines 137-145) -/

/-- `f"\n--- {fname} ---\n"`, the per-file header of the combined context. -/
def ctxHeader (fname : List Char) : List Char :=
  "\n--- ".toList ++ fname ++ " ---\n".toList

/-- `max_chars` (line 138). -/
def maxChars : Nat := 12000

/-- Lines 140-142: the chunk actually appended for one file.  If appending
the whole chunk would push the accumulated length past `max_chars`, the
chunk is sliced to `max_chars - len(combined_context)`. -/
def chunkTaken (acc chunk : List Char) : List Char :=
  if maxChars < acc.length + chunk.length then
    chunk.take (maxChars - acc.length)
  else chunk

/-- Line 143: the accumulated context after one file: previous context,
header, (possibly truncated) chunk, trailing newline. -/
def ctxAppend (acc fname chunk : List Char) : List Char :=
  acc ++ ctxHeader fname ++ chunkTaken acc chunk ++ ['\n']

/-- The context-building loop of `ask` (lines 137-145) over the chosen files
with their texts: append each file and stop (line 144-145) as soon as the
accumulated length reaches `max_chars`. -/
def buildContext : List (List Char × List Char) → List Char → List Char
  | [], acc => acc
  | (fname, chunk) :: rest, acc =>
      if maxChars ≤ (ctxAppend acc fname chunk).length then
        ctxAppend acc fname chunk
      else buildContext rest (ctxAppend acc fname chunk)

/-- One iteration of the context-building loop, instrumented: the accumulated
length when the file was reached, the file name, the original chunk, and the
chunk actually appended. -/
structure CtxStep where
  accBefore : Nat
  fname : List Char
  orig : List Char
  appended : List Char
  deriving DecidableEq

/-- Instrumented trace of the context-building loop: one `CtxStep` per file
actually processed, mirroring `buildContext` exactly. -/
def contextTrace : List (List Char × List Char) → List Char → List CtxStep
  | [], _ => []
  | (fname, chunk) :: rest, acc =>
      ⟨acc.length, fname, chunk, chunkTaken acc chunk⟩ ::
        (if maxChars ≤ (ctxAppend acc fname chunk).length then []
         else contextTrace rest (ctxAppend acc fname chunk))

/-! ### Concrete inputs used by counterexamples and witnesses -/

/-- A request whose event has channel and user, whose `ask` succeeds, and all
of whose chat-transport calls succeed. -/
def cfgAll : Config := ⟨true, true, "U1", true, "ans", true, true, 42, true, true, true⟩

/-- A request in which the placeholder update and both fresh posts of the
final text fail. -/
def cfgFailPosts : Config := ⟨true, true, "U4", true, "ans", true, true, 42, false, false, false⟩

/-- A request in which `ask` raises; all transport calls succeed. -/
def cfgAskFail : Config := ⟨true, true, "U8", false, "ans", true, true, 42, true, true, true⟩

/-- The racy interleaving: both timers pass their checks while
`done["flag"]` is still false, the main thread finalizes and delivers, and
only then do the timers perform their transport calls. -/
def schedRace : List Tid := [Tid.eph, Tid.pl, Tid.main, Tid.main, Tid.eph, Tid.pl]

/-- A fast resolution: the main thread finalizes and delivers before either
timer performs its check. -/
def schedFast : List Tid := [Tid.main, Tid.main, Tid.eph, Tid.pl]

/-! ### Basic step and run lemmas -/

theorem run_nil (cfg : Config) (s : BotState) : run cfg [] s = s := rfl

theorem run_cons (cfg : Config) (t : Tid) (rest : List Tid) (s : BotState) :
    run cfg (t :: rest) s = run cfg rest (step cfg s t) := rfl

theorem run_append (cfg : Config) (a b : List Tid) (s : BotState) :
    run cfg (a ++ b) s = run cfg b (run cfg a s) := by
  induction a generalizing s with
  | nil => rfl
  | cons t rest ih => simp [run_cons, ih, List.cons_append]

theorem run_inv (cfg : Config) (P : BotState → Prop)
    (hstep : ∀ s t, P s → P (step cfg s t)) :
    ∀ (sched : List Tid) (s : BotState), P s → P (run cfg sched s) := by
  intro sched
  induction sched with
  | nil => exact fun s h => h
  | cons t rest ih => exact fun s h => ih _ (hstep s t h)

theorem ephStep_done (cfg : Config) (s : BotState) :
    (ephStep cfg s).done = s.done := by
  unfold ephStep; split_ifs <;> rfl

theorem ephStep_ts (cfg : Config) (s : BotState) :
    (ephStep cfg s).ts = s.ts := by
  unfold ephStep; split_ifs <;> rfl

theorem ephStep_plPC (cfg : Config) (s : BotState) :
    (ephStep cfg s).plPC = s.plPC := by
  unfold ephStep; split_ifs <;> rfl

theorem ephStep_mainPC (cfg : Config) (s : BotState) :
    (ephStep cfg s).mainPC = s.mainPC := by
  unfold ephStep; split_ifs <;> rfl

theorem plStep_done (cfg : Config) (s : BotState) :
    (plStep cfg s).done = s.done := by
  unfold plStep; split_ifs <;> rfl

theorem plStep_ephPC (cfg : Config) (s : BotState) :
    (plStep cfg s).ephPC = s.ephPC := by
  unfold plStep; split_ifs <;> rfl

theorem plStep_mainPC (cfg : Config) (s : BotState) :
    (plStep cfg s).mainPC = s.mainPC := by
  unfold plStep; split_ifs <;> rfl

theorem mainStep_ephPC (cfg : Config) (s : BotState) :
    (mainStep cfg s).ephPC = s.ephPC := by
  unfold mainStep; split_ifs <;> rfl

theorem mainStep_plPC (cfg : Config) (s : BotState) :
    (mainStep cfg s).plPC = s.plPC := by
  unfold mainStep; split_ifs <;> rfl

theorem mainStep_ts (cfg : Config) (s : BotState) :
    (mainStep cfg s).ts = s.ts := by
  unfold mainStep; split_ifs <;> rfl

theorem mainStep_done_of (cfg : Config) (s : BotState)
    (h : 1 ≤ s.mainPC → s.done = true) : (mainStep cfg s).done = true := by
  unfold mainStep; split_ifs with h0 h1
  · rfl
  · exact h (by omega)
  · exact h (by omega)

theorem step_done_mono (cfg : Config) (s : BotState) (t : Tid)
    (h : s.done = true) : (step cfg s t).done = true := by
  cases t with
  | eph => show (ephStep cfg s).done = true; rw [ephStep_done]; exact h
  | pl => show (plStep cfg s).done = true; rw [plStep_done]; exact h
  | main => exact mainStep_done_of cfg s (fun _ => h)

theorem ephStep_trace (cfg : Config) (s : BotState) :
    (ephStep cfg s).trace = s.trace ∨
    (ephStep cfg s).trace = s.trace ++ [Event.ephSent] ∨
    (ephStep cfg s).trace = s.trace ++ [Event.ephFail] := by
  unfold ephStep; split_ifs <;> simp

theorem plStep_trace (cfg : Config) (s : BotState) :
    (plStep cfg s).trace = s.trace ∨
    (plStep cfg s).trace = s.trace ++ [Event.placePosted cfg.tsVal] ∨
    (plStep cfg s).trace = s.trace ++ [Event.placeFail] := by
  unfold plStep; split_ifs <;> simp

theorem mainStep_trace (cfg : Config) (s : BotState) :
    (mainStep cfg s).trace = s.trace ∨
    (mainStep cfg s).trace = s.trace ++ [Event.finalized] ∨
    (mainStep cfg s).trace = s.trace ++ deliver cfg (finalText cfg) s.ts := by
  unfold mainStep; split_ifs <;> simp

theorem deliver_no_timer_events (cfg : Config) (txt : String) (ts : Option Nat) :
    Event.ephSent ∉ deliver cfg txt ts ∧
    ∀ t0, Event.placePosted t0 ∉ deliver cfg txt ts := by
  rcases ts with _ | t <;> unfold deliver <;> split_ifs <;> simp

/-- Only the main thread writes `done["flag"]`, so a nonzero main program
counter implies the flag is set, along any run. -/
theorem run_mainPC_done (cfg : Config) (sched : List Tid) (s : BotState)
    (h : 1 ≤ s.mainPC → s.done = true) :
    1 ≤ (run cfg sched s).mainPC → (run cfg sched s).done = true := by
  refine run_inv cfg (fun s => 1 ≤ s.mainPC → s.done = true) ?_ sched s h
  intro s t hs
  cases t with
  | eph =>
      intro hge
      rw [show step cfg s Tid.eph = ephStep cfg s from rfl, ephStep_mainPC] at hge
      rw [show step cfg s Tid.eph = ephStep cfg s from rfl, ephStep_done]
      exact hs hge
  | pl =>
      intro hge
      rw [show step cfg s Tid.pl = plStep cfg s from rfl, plStep_mainPC] at hge
      rw [show step cfg s Tid.pl = plStep cfg s from rfl, plStep_done]
      exact hs hge
  | main => exact fun _ => mainStep_done_of cfg s hs

/-- A schedule containing no ephemeral-timer step leaves the ephemeral
program counter unchanged and sends no ephemeral notice. -/
theorem run_no_eph (cfg : Config) :
    ∀ (sched : List Tid), Tid.eph ∉ sched → ∀ s : BotState,
      (run cfg sched s).ephPC = s.ephPC ∧
      (Event.ephSent ∉ s.trace → Event.ephSent ∉ (run cfg sched s).trace) := by
  intro sched
  induction sched with
  | nil => exact fun _ s => ⟨rfl, fun h => h⟩
  | cons t rest ih =>
      intro hmem s
      have ht : t ≠ Tid.eph := fun h => hmem (h ▸ List.mem_cons_self t rest)
      have hrest : Tid.eph ∉ rest := fun h => hmem (List.mem_cons_of_mem t h)
      have hpc : (step cfg s t).ephPC = s.ephPC := by
        cases t with
        | eph => exact absurd rfl ht
        | pl => exact plStep_ephPC cfg s
        | main => exact mainStep_ephPC cfg s
      have htr : Event.ephSent ∉ s.trace → Event.ephSent ∉ (step cfg s t).trace := by
        intro h0
        cases t with
        | eph => exact absurd rfl ht
        | pl =>
            rcases plStep_trace cfg s with h | h | h <;>
              rw [show step cfg s Tid.pl = plStep cfg s from rfl, h] <;>
              simp [List.mem_append, h0]
        | main =>
            rcases mainStep_trace cfg s with h | h | h <;>
              rw [show step cfg s Tid.main = mainStep cfg s from rfl, h] <;>
              simp [List.mem_append, h0, (deliver_no_timer_events cfg (finalText cfg) s.ts).1]
      rw [run_cons]
      obtain ⟨ihpc, ihtr⟩ := ih hrest (step cfg s t)
      exact ⟨ihpc.trans hpc, fun h0 => ihtr (htr h0)⟩

/-- A schedule containing no placeholder-timer step leaves the placeholder
program counter and the recorded handle unchanged and posts no placeholder. -/
theorem run_no_pl (cfg : Config) :
    ∀ (sched : List Tid), Tid.pl ∉ sched → ∀ s : BotState,
      (run cfg sched s).plPC = s.plPC ∧
      (run cfg sched s).ts = s.ts ∧
      (∀ t0, Event.placePosted t0 ∉ s.trace →
        Event.placePosted t0 ∉ (run cfg sched s).trace) := by
  intro sched
  induction sched with
  | nil => exact fun _ s => ⟨rfl, rfl, fun _ h => h⟩
  | cons t rest ih =>
      intro hmem s
      have ht : t ≠ Tid.pl := fun h => hmem (h ▸ List.mem_cons_self t rest)
      have hrest : Tid.pl ∉ rest := fun h => hmem (List.mem_cons_of_mem t h)
      have hpc : (step cfg s t).plPC = s.plPC := by
        cases t with
        | eph => exact ephStep_plPC cfg s
        | pl => exact absurd rfl ht
        | main => exact mainStep_plPC cfg s
      have hts : (step cfg s t).ts = s.ts := by
        cases t with
        | eph => exact ephStep_ts cfg s
        | pl => exact absurd rfl ht
        | main => exact mainStep_ts cfg s
      have htr : ∀ t0, Event.placePosted t0 ∉ s.trace →
          Event.placePosted t0 ∉ (step cfg s t).trace := by
        intro t0 h0
        cases t with
        | eph =>
            rcases ephStep_trace cfg s with h | h | h <;>
              rw [show step cfg s Tid.eph = ephStep cfg s from rfl, h] <;>
              simp [List.mem_append, h0]
        | pl => exact absurd rfl ht
        | main =>
            rcases mainStep_trace cfg s with h | h | h <;>
              rw [show step cfg s Tid.main = mainStep cfg s from rfl, h] <;>
              simp [List.mem_append, h0,
                (deliver_no_timer_events cfg (finalText cfg) s.ts).2 t0]
      rw [run_cons]
      obtain ⟨ihpc, ihts, ihtr⟩ := ih hrest (step cfg s t)
      exact ⟨ihpc.trans hpc, ihts.trans hts,
        fun t0 h0 => ihtr t0 (htr t0 h0)⟩

/-- After the finalizer's write of `done["flag"]`, any timer that has not yet
performed its check is neutralized: from a state with the flag set and
neither timer between its check and its act, the run leaves the placeholder
cell alone, and the trace grows exactly by the delivery block (once, when the
main thread performs its delivery step) and by nothing else. -/
theorem run_after_final (cfg : Config) :
    ∀ (sched : List Tid) (s : BotState),
      s.done = true → s.ephPC ≠ 1 → s.plPC ≠ 1 →
      (run cfg sched s).done = true ∧
      (run cfg sched s).ephPC ≠ 1 ∧
      (run cfg sched s).plPC ≠ 1 ∧
      (run cfg sched s).ts = s.ts ∧
      (s.mainPC = 1 →
        ((run cfg sched s).mainPC = 1 ∧ (run cfg sched s).trace = s.trace) ∨
        ((run cfg sched s).mainPC = 2 ∧
          (run cfg sched s).trace = s.trace ++ deliver cfg (finalText cfg) s.ts)) ∧
      (s.mainPC = 2 →
        (run cfg sched s).mainPC = 2 ∧ (run cfg sched s).trace = s.trace) := by
  intro sched
  induction sched with
  | nil =>
      intro s h1 h2 h3
      exact ⟨h1, h2, h3, rfl, fun h => Or.inl ⟨h, rfl⟩, fun h => ⟨h, rfl⟩⟩
  | cons t rest ih =>
      intro s h1 h2 h3
      rw [run_cons]
      cases t with
      | eph =>
          have key : step cfg s Tid.eph = ⟨s.done, s.ts, 2, s.plPC, s.mainPC, s.trace⟩ ∨
              step cfg s Tid.eph = s := by
            show ephStep cfg s = _ ∨ ephStep cfg s = s
            unfold ephStep
            split_ifs with hp0 hcond
            · rw [h1] at hcond; simp at hcond
            · exact Or.inl rfl
            · exact Or.inr rfl
          rcases key with hk | hk <;> rw [hk]
          · exact ih _ h1 (by simp) h3
          · exact ih _ h1 h2 h3
      | pl =>
          have key : step cfg s Tid.pl = ⟨s.done, s.ts, s.ephPC, 2, s.mainPC, s.trace⟩ ∨
              step cfg s Tid.pl = s := by
            show plStep cfg s = _ ∨ plStep cfg s = s
            unfold plStep
            split_ifs with hp0 hcond
            · rw [h1] at hcond; simp at hcond
            · exact Or.inl rfl
            · exact Or.inr rfl
          rcases key with hk | hk <;> rw [hk]
          · exact ih _ h1 h2 (by simp)
          · exact ih _ h1 h2 h3
      | main =>
          by_cases hm0 : s.mainPC = 0
          · have hk : step cfg s Tid.main =
                ⟨true, s.ts, s.ephPC, s.plPC, 1, s.trace ++ [Event.finalized]⟩ := by
              show mainStep cfg s = _
              unfold mainStep
              rw [if_pos hm0]
            rw [hk]
            obtain ⟨c1, c2, c3, c4, _, _⟩ := ih ⟨true, s.ts, s.ephPC, s.plPC, 1,
              s.trace ++ [Event.finalized]⟩ rfl h2 h3
            exact ⟨c1, c2, c3, c4, fun h => absurd (h ▸ hm0) (by omega),
              fun h => absurd (h ▸ hm0) (by omega)⟩
          · by_cases hm1 : s.mainPC = 1
            · have hk : step cfg s Tid.main =
                  ⟨s.done, s.ts, s.ephPC, s.plPC, 2,
                    s.trace ++ deliver cfg (finalText cfg) s.ts⟩ := by
                show mainStep cfg s = _
                unfold mainStep
                rw [if_neg hm0, if_pos hm1]
              rw [hk]
              obtain ⟨c1, c2, c3, c4, _, c6⟩ := ih ⟨s.done, s.ts, s.ephPC, s.plPC, 2,
                s.trace ++ deliver cfg (finalText cfg) s.ts⟩ h1 h2 h3
              refine ⟨c1, c2, c3, c4, fun _ => Or.inr ?_, fun h => absurd h (by omega)⟩
              exact c6 rfl
            · have hk : step cfg s Tid.main = s := by
                show mainStep cfg s = s
                unfold mainStep
                rw [if_neg hm0, if_neg hm1]
              rw [hk]
              obtain ⟨c1, c2, c3, c4, c5, c6⟩ := ih s h1 h2 h3
              exact ⟨c1, c2, c3, c4, c5, c6⟩

/-- A finished placeholder timer is a no-op. -/
theorem run_pl_noop (cfg : Config) :
    ∀ (n : Nat) (s : BotState), s.plPC = 2 →
      run cfg (List.replicate n Tid.pl) s = s := by
  intro n
  induction n with
  | zero => exact fun s _ => rfl
  | succ n ih =>
      intro s h
      have hs : step cfg s Tid.pl = s := by
        show plStep cfg s = s
        unfold plStep
        rw [if_neg (by omega), if_neg (by omega)]
      show run cfg (List.replicate n Tid.pl) (step cfg s Tid.pl) = s
      rw [hs]; exact ih s h

/-- When the event carries channel and user and the placeholder `say`
succeeds, running the placeholder timer to completion before anything else
posts exactly the placeholder and records its handle. -/
theorem run_pl_first (cfg : Config) (h1 : cfg.hasChannel = true)
    (h2 : cfg.hasUser = true) (h3 : cfg.placOk = true) (n : Nat) :
    run cfg (List.replicate (n + 2) Tid.pl) initState =
      ⟨false, some cfg.tsVal, 0, 2, 0, [Event.placePosted cfg.tsVal]⟩ := by
  have hrep : List.replicate (n + 2) Tid.pl =
      Tid.pl :: Tid.pl :: List.replicate n Tid.pl := rfl
  rw [hrep, run_cons, run_cons]
  have hs1 : step cfg initState Tid.pl = ⟨false, none, 0, 1, 0, []⟩ := by
    show plStep cfg initState = _
    unfold plStep initState
    simp [h1, h2]
  rw [hs1]
  have hs2 : step cfg (⟨false, none, 0, 1, 0, []⟩ : BotState) Tid.pl =
      ⟨false, some cfg.tsVal, 0, 2, 0, [Event.placePosted cfg.tsVal]⟩ := by
    show plStep cfg _ = _
    unfold plStep
    simp [h3]
  rw [hs2]
  exact run_pl_noop cfg n _ rfl

/-! ### Delivery-block lemmas and the delivery invariant -/

theorem deliver_delEvents (cfg : Config) (txt : String) (ts : Option Nat) :
    delEvents (deliver cfg txt ts) = deliver cfg txt ts := by
  rcases ts with _ | t <;> unfold deliver <;> split_ifs <;>
    simp [delEvents, isDelEvent]

theorem deliver_succ_facts (cfg : Config) (txt : String) (ts : Option Nat) :
    ((deliver cfg txt ts).filter isDelSuccess).length ≤ 1 ∧
    (∀ e ∈ deliver cfg txt ts, isDelSuccess e = true →
      ((deliver cfg txt ts).filter isDelSuccess).length = 1) ∧
    (∀ t x, Event.updateOk t x ∈ deliver cfg txt ts → x = txt ∧ ts = some t) ∧
    (∀ x, Event.postOk x ∈ deliver cfg txt ts → x = txt) := by
  rcases ts with _ | t <;> unfold deliver <;> split_ifs <;>
    simp [isDelSuccess]

theorem isDelSuccess_isDelEvent (e : Event) (h : isDelSuccess e = true) :
    isDelEvent e = true := by
  cases e <;> first | rfl | simp [isDelSuccess] at h

theorem filter_success_delEvents (tr : List Event) :
    tr.filter isDelSuccess = (delEvents tr).filter isDelSuccess := by
  unfold delEvents
  induction tr with
  | nil => rfl
  | cons e rest ih =>
      cases e <;> simp [List.filter_cons, isDelSuccess, isDelEvent, ih]

theorem inv2_extend (cfg : Config) (m : Nat) (ts : Option Nat)
    (tr ext : List Event) (h : Inv2 cfg m ts tr)
    (hext : ext.filter isDelEvent = []) : Inv2 cfg m ts (tr ++ ext) := by
  obtain ⟨hA, hB, hC⟩ := h
  have hdel : delEvents (tr ++ ext) = delEvents tr := by
    unfold delEvents at *
    rw [List.filter_append, hext, List.append_nil]
  refine ⟨?_, ?_, ?_⟩
  · intro hm; rw [hdel]; exact hA hm
  · intro hm
    obtain ⟨ts0, hd, hp⟩ := hB hm
    exact ⟨ts0, by rw [hdel]; exact hd,
      fun t ht => List.mem_append_left ext (hp t ht)⟩
  · exact fun t ht => List.mem_append_left ext (hC t ht)

theorem inv2_init (cfg : Config) : Inv2 cfg 0 none [] := by
  refine ⟨fun _ => rfl, fun h => by omega, fun t ht => by cases ht⟩

theorem inv2_step (cfg : Config) (s : BotState) (t : Tid)
    (h : Inv2 cfg s.mainPC s.ts s.trace) :
    Inv2 cfg (step cfg s t).mainPC (step cfg s t).ts (step cfg s t).trace := by
  obtain ⟨hA, hB, hC⟩ := h
  cases t with
  | eph =>
      show Inv2 cfg (ephStep cfg s).mainPC (ephStep cfg s).ts (ephStep cfg s).trace
      rw [ephStep_mainPC, ephStep_ts]
      rcases ephStep_trace cfg s with htr | htr | htr <;> rw [htr]
      · exact ⟨hA, hB, hC⟩
      · exact inv2_extend cfg _ _ _ _ ⟨hA, hB, hC⟩ rfl
      · exact inv2_extend cfg _ _ _ _ ⟨hA, hB, hC⟩ rfl
  | pl =>
      show Inv2 cfg (plStep cfg s).mainPC (plStep cfg s).ts (plStep cfg s).trace
      rw [plStep_mainPC]
      unfold plStep
      split_ifs with hp0 hcond hp1 hplac
      · exact ⟨hA, hB, hC⟩
      · exact ⟨hA, hB, hC⟩
      · -- successful placeholder post: handle recorded, event appended
        refine ⟨?_, ?_, ?_⟩
        · intro hm
          unfold delEvents
          rw [List.filter_append]
          have : List.filter isDelEvent [Event.placePosted cfg.tsVal] = [] := rfl
          rw [this, List.append_nil]
          exact hA hm
        · intro hm
          obtain ⟨ts0, hd, hp⟩ := hB hm
          refine ⟨ts0, ?_, fun t0 ht0 => List.mem_append_left _ (hp t0 ht0)⟩
          unfold delEvents at hd ⊢
          rw [List.filter_append]
          have : List.filter isDelEvent [Event.placePosted cfg.tsVal] = [] := rfl
          rw [this, List.append_nil]
          exact hd
        · intro t0 ht0
          have : t0 = cfg.tsVal := by
            have := ht0
            simp at this
            omega
          rw [this]
          exact List.mem_append_right _ (List.mem_singleton.mpr rfl)
      · exact inv2_extend cfg _ _ _ _ ⟨hA, hB, hC⟩ rfl
      · exact ⟨hA, hB, hC⟩
  | main =>
      show Inv2 cfg (mainStep cfg s).mainPC (mainStep cfg s).ts (mainStep cfg s).trace
      unfold mainStep
      split_ifs with hm0 hm1
      · -- flag write: PC 0 → 1, trace gains the finalized marker
        refine ⟨?_, fun h => absurd h (by simp), ?_⟩
        · intro _
          unfold delEvents
          rw [List.filter_append]
          have : List.filter isDelEvent [Event.finalized] = [] := rfl
          rw [this, List.append_nil]
          exact hA (by omega)
        · exact fun t ht => List.mem_append_left _ (hC t ht)
      · -- delivery step: PC 1 → 2, trace gains one run of the delivery block
        refine ⟨fun h => absurd h (by simp), ?_, ?_⟩
        · intro _
          refine ⟨s.ts, ?_, fun t ht => List.mem_append_left _ (hC t ht)⟩
          unfold delEvents
          rw [List.filter_append]
          have h1 : List.filter isDelEvent s.trace = [] := hA (by omega)
          have h2 : List.filter isDelEvent (deliver cfg (finalText cfg) s.ts) =
              deliver cfg (finalText cfg) s.ts := deliver_delEvents cfg _ _
          rw [h1, h2, List.nil_append]
        · exact fun t ht => List.mem_append_left _ (hC t ht)
      · exact ⟨hA, hB, hC⟩

/-- The delivery invariant holds at the end of every run. -/
theorem run_inv2 (cfg : Config) (sched : List Tid) :
    Inv2 cfg (runFrom cfg sched).mainPC (runFrom cfg sched).ts
      (runFrom cfg sched).trace :=
  run_inv cfg (fun s => Inv2 cfg s.mainPC s.ts s.trace)
    (fun s t h => inv2_step cfg s t h) sched initState (inv2_init cfg)

/-! ### Monotonicity of the completion flag -/

theorem doneAt_zero (cfg : Config) (sched : List Tid) :
    doneAt cfg sched 0 = false := rfl

theorem doneAt_succ (cfg : Config) (sched : List Tid) (k : Nat)
    (h : doneAt cfg sched k = true) : doneAt cfg sched (k + 1) = true := by
  unfold doneAt at *
  rw [List.take_succ, run_append]
  rcases sched[k]? with _ | t
  · exact h
  · exact step_done_mono cfg _ t h

theorem doneAt_mono (cfg : Config) (sched : List Tid) :
    ∀ k m, k ≤ m → doneAt cfg sched k = true → doneAt cfg sched m = true := by
  intro k m
  induction m with
  | zero => intro hk h; rw [Nat.le_zero.mp hk] at h; exact h
  | succ m ih =>
      intro hk h
      rcases Nat.lt_or_ge k (m + 1) with hlt | hge
      · exact doneAt_succ cfg sched m (ih (by omega) h)
      · rw [Nat.le_antisymm hk hge] at h; exact h

theorem ephStep_neutral (cfg : Config) (s : BotState) (h1 : s.done = true)
    (h2 : s.ephPC ≠ 1) :
    (ephStep cfg s).ephPC ≠ 1 ∧ (ephStep cfg s).trace = s.trace := by
  unfold ephStep
  split_ifs with hp0 hcond
  · rw [h1] at hcond; simp at hcond
  · exact ⟨by simp, rfl⟩
  · exact ⟨h2, rfl⟩

theorem plStep_neutral (cfg : Config) (s : BotState) (h1 : s.done = true)
    (h3 : s.plPC ≠ 1) :
    (plStep cfg s).plPC ≠ 1 ∧ (plStep cfg s).trace = s.trace := by
  unfold plStep
  split_ifs with hp0 hcond
  · rw [h1] at hcond; simp at hcond
  · exact ⟨by simp, rfl⟩
  · exact ⟨h3, rfl⟩

/-- From any state with the flag set and the notice timer not between its
check and its act, the rest of the run sends no ephemeral notice: a check
performed after the flag write neutralizes the timer. -/
theorem run_no_new_eph (cfg : Config) :
    ∀ (sched : List Tid) (s : BotState),
      s.done = true → s.ephPC ≠ 1 → Event.ephSent ∉ s.trace →
      Event.ephSent ∉ (run cfg sched s).trace := by
  intro sched
  induction sched with
  | nil => exact fun s _ _ h => h
  | cons t rest ih =>
      intro s h1 h2 h3
      rw [run_cons]
      cases t with
      | eph =>
          obtain ⟨ha, hb⟩ := ephStep_neutral cfg s h1 h2
          refine ih (step cfg s Tid.eph) ?_ ha ?_
          · rw [show step cfg s Tid.eph = ephStep cfg s from rfl, ephStep_done]
            exact h1
          · rw [show step cfg s Tid.eph = ephStep cfg s from rfl, hb]
            exact h3
      | pl =>
          refine ih (step cfg s Tid.pl) ?_ ?_ ?_
          · rw [show step cfg s Tid.pl = plStep cfg s from rfl, plStep_done]
            exact h1
          · rw [show step cfg s Tid.pl = plStep cfg s from rfl, plStep_ephPC]
            exact h2
          · rcases plStep_trace cfg s with h | h | h <;>
              rw [show step cfg s Tid.pl = plStep cfg s from rfl, h] <;>
              simp [List.mem_append, h3]
      | main =>
          refine ih (step cfg s Tid.main) (mainStep_done_of cfg s (fun _ => h1)) ?_ ?_
          · rw [show step cfg s Tid.main = mainStep cfg s from rfl, mainStep_ephPC]
            exact h2
          · rcases mainStep_trace cfg s with h | h | h <;>
              rw [show step cfg s Tid.main = mainStep cfg s from rfl, h] <;>
              simp [List.mem_append, h3,
                (deliver_no_timer_events cfg (finalText cfg) s.ts).1]

/-- From any state with the flag set and the placeholder timer not between
its check and its act, the rest of the run posts no placeholder. -/
theorem run_no_new_place (cfg : Config) :
    ∀ (sched : List Tid) (s : BotState),
      s.done = true → s.plPC ≠ 1 →
      ∀ t0, Event.placePosted t0 ∉ s.trace →
        Event.placePosted t0 ∉ (run cfg sched s).trace := by
  intro sched
  induction sched with
  | nil => exact fun s _ _ _ h => h
  | cons t rest ih =>
      intro s h1 h2 t0 h3
      rw [run_cons]
      cases t with
      | pl =>
          obtain ⟨ha, hb⟩ := plStep_neutral cfg s h1 h2
          refine ih (step cfg s Tid.pl) ?_ ha t0 ?_
          · rw [show step cfg s Tid.pl = plStep cfg s from rfl, plStep_done]
            exact h1
          · rw [show step cfg s Tid.pl = plStep cfg s from rfl, hb]
            exact h3
      | eph =>
          refine ih (step cfg s Tid.eph) ?_ ?_ t0 ?_
          · rw [show step cfg s Tid.eph = ephStep cfg s from rfl, ephStep_done]
            exact h1
          · rw [show step cfg s Tid.eph = ephStep cfg s from rfl, ephStep_plPC]
            exact h2
          · rcases ephStep_trace cfg s with h | h | h <;>
              rw [show step cfg s Tid.eph = ephStep cfg s from rfl, h] <;>
              simp [List.mem_append, h3]
      | main =>
          refine ih (step cfg s Tid.main)
            (mainStep_done_of cfg s (fun _ => h1)) ?_ t0 ?_
          · rw [show step cfg s Tid.main = mainStep cfg s from rfl, mainStep_plPC]
            exact h2
          · rcases mainStep_trace cfg s with h | h | h <;>
              rw [show step cfg s Tid.main = mainStep cfg s from rfl, h] <;>
              simp [List.mem_append, h3,
                (deliver_no_timer_events cfg (finalText cfg) s.ts).2 t0]

/-! ### Claims -/

/-- C1, counterexample: the claim that once the finalizer has set
`done["flag"]` no ephemeral notice is sent and no placeholder is posted is
false for the code.  The timers' read of the flag and their subsequent
transport call are not mutually exclusive with the finalizer's write: in the
interleaving `schedRace` both timers pass their checks first, the main thread
finalizes and posts the final answer, and afterwards the ephemeral notice is
still sent and the placeholder is still posted. -/
theorem c1_counterexample :
    ¬ NoTimerEffectAfterFinal ((runFrom cfgAll schedRace).trace) := by
  intro h
  have h2 := h []
    [Event.postOk "<@U1> ans", Event.ephSent, Event.placePosted 42] (by decide)
  exact h2.1 (by decide)

/-- C1, amended: the timers check `done["flag"]` before acting, so any
notifier or placeholder-poster whose check runs after the finalizer's write
of the flag produces no user-visible side effect; only a timer that passed
its check before the write can still act after finalization.  Formally: in
any interleaving in which no step of the given timer precedes the first
main-thread step, that timer's message never appears in the trace. -/
theorem c1_amended (cfg : Config) (l₁ l₂ : List Tid) :
    (Tid.eph ∉ l₁ →
      Event.ephSent ∉ (runFrom cfg (l₁ ++ Tid.main :: l₂)).trace) ∧
    (Tid.pl ∉ l₁ →
      ∀ t, Event.placePosted t ∉ (runFrom cfg (l₁ ++ Tid.main :: l₂)).trace) := by
  have hsplit : runFrom cfg (l₁ ++ Tid.main :: l₂) =
      run cfg l₂ (step cfg (run cfg l₁ initState) Tid.main) := by
    show run cfg (l₁ ++ Tid.main :: l₂) initState = _
    rw [run_append, run_cons]
  have hdone : (step cfg (run cfg l₁ initState) Tid.main).done = true :=
    mainStep_done_of cfg _
      (run_mainPC_done cfg l₁ initState (fun h => absurd h (by decide)))
  constructor
  · intro hmem
    obtain ⟨hpc, htr⟩ := run_no_eph cfg l₁ hmem initState
    have h2 : (step cfg (run cfg l₁ initState) Tid.main).ephPC ≠ 1 := by
      rw [show step cfg (run cfg l₁ initState) Tid.main =
        mainStep cfg (run cfg l₁ initState) from rfl, mainStep_ephPC, hpc]
      decide
    have h3 : Event.ephSent ∉ (step cfg (run cfg l₁ initState) Tid.main).trace := by
      have h0 : Event.ephSent ∉ (run cfg l₁ initState).trace :=
        htr (by simp [initState])
      rcases mainStep_trace cfg (run cfg l₁ initState) with h | h | h <;>
        rw [show step cfg (run cfg l₁ initState) Tid.main =
          mainStep cfg (run cfg l₁ initState) from rfl, h] <;>
        simp [List.mem_append, h0,
          (deliver_no_timer_events cfg (finalText cfg) _).1]
    rw [hsplit]
    exact run_no_new_eph cfg l₂ _ hdone h2 h3
  · intro hmem t
    obtain ⟨hpc, hts, htr⟩ := run_no_pl cfg l₁ hmem initState
    have h2 : (step cfg (run cfg l₁ initState) Tid.main).plPC ≠ 1 := by
      rw [show step cfg (run cfg l₁ initState) Tid.main =
        mainStep cfg (run cfg l₁ initState) from rfl, mainStep_plPC, hpc]
      decide
    have h3 : Event.placePosted t ∉
        (step cfg (run cfg l₁ initState) Tid.main).trace := by
      have h0 : Event.placePosted t ∉ (run cfg l₁ initState).trace :=
        htr t (by simp [initState])
      rcases mainStep_trace cfg (run cfg l₁ initState) with h | h | h <;>
        rw [show step cfg (run cfg l₁ initState) Tid.main =
          mainStep cfg (run cfg l₁ initState) from rfl, h] <;>
        simp [List.mem_append, h0,
          (deliver_no_timer_events cfg (finalText cfg) _).2 t]
    rw [hsplit]
    exact run_no_new_place cfg l₂ _ hdone h2 t h3

/-- C1 witness: the amended statement at a concrete request and schedule. -/
theorem c1_amended_witness :
    Event.ephSent ∉
      (runFrom cfgAll ([] ++ Tid.main :: [Tid.main, Tid.eph, Tid.pl])).trace ∧
    Event.placePosted 42 ∉
      (runFrom cfgAll ([] ++ Tid.main :: [Tid.main, Tid.eph, Tid.pl])).trace :=
  ⟨(c1_amended cfgAll [] [Tid.main, Tid.eph, Tid.pl]).1 (by decide),
   (c1_amended cfgAll [] [Tid.main, Tid.eph, Tid.pl]).2 (by decide) 42⟩

/-- C7: along every complete run, `done["flag"]` starts false, never goes
back from true to false, ends true, and there is exactly one step at which
it switches from false to true. -/
theorem c7_completed_monotone (cfg : Config) (sched : List Tid)
    (hc : Complete (runFrom cfg sched)) :
    doneAt cfg sched 0 = false ∧
    (∀ k, doneAt cfg sched k = true → doneAt cfg sched (k + 1) = true) ∧
    doneAt cfg sched sched.length = true ∧
    ∃! k, doneAt cfg sched k = false ∧ doneAt cfg sched (k + 1) = true := by
  have hmain2 : (run cfg sched initState).mainPC = 2 := hc.2.2
  have hlen : doneAt cfg sched sched.length = true := by
    unfold doneAt
    rw [List.take_length]
    exact run_mainPC_done cfg sched initState
      (fun h => absurd h (by decide)) (by rw [hmain2]; decide)
  refine ⟨rfl, fun k => doneAt_succ cfg sched k, hlen, ?_⟩
  have hex : ∃ k, doneAt cfg sched k = true := ⟨sched.length, hlen⟩
  have hn := Nat.find_spec hex
  have hpos : Nat.find hex ≠ 0 := by
    intro h0
    rw [h0, doneAt_zero] at hn
    exact absurd hn (by decide)
  refine ⟨Nat.find hex - 1, ⟨?_, ?_⟩, ?_⟩
  · have hmin := Nat.find_min hex
      (show Nat.find hex - 1 < Nat.find hex by omega)
    cases hval : doneAt cfg sched (Nat.find hex - 1)
    · rfl
    · exact absurd hval hmin
  · have h1 : Nat.find hex - 1 + 1 = Nat.find hex := by omega
    rw [h1]; exact hn
  · rintro k ⟨hkf, hkt⟩
    have h1 : Nat.find hex ≤ k + 1 := Nat.find_min' hex hkt
    have h2 : k < Nat.find hex := by
      by_contra hcon
      push_neg at hcon
      have := doneAt_mono cfg sched (Nat.find hex) k hcon hn
      rw [hkf] at this
      exact absurd this (by decide)
    omega

/-- C7 witness: the monotone-switch property at a concrete request and
schedule. -/
theorem c7_witness :
    doneAt cfgAll schedFast 0 = false ∧
    doneAt cfgAll schedFast schedFast.length = true := by
  have h := c7_completed_monotone cfgAll schedFast (by decide)
  exact ⟨h.1, h.2.2.1⟩

/-- C5: when the answer resolves and the finalizer sets the flag before
either timer performs its check (the schedule starts with the main thread's
flag write) and the fresh post succeeds, no ephemeral notice is sent, no
placeholder is posted, and the successful deliveries are exactly one fresh
threaded post of the final text (in particular no placeholder update). -/
theorem c5_fast_resolution (cfg : Config) (l₂ : List Tid)
    (hpost : cfg.postOk = true)
    (hc : Complete (runFrom cfg (Tid.main :: l₂))) :
    Event.ephSent ∉ (runFrom cfg (Tid.main :: l₂)).trace ∧
    (∀ t, Event.placePosted t ∉ (runFrom cfg (Tid.main :: l₂)).trace) ∧
    (runFrom cfg (Tid.main :: l₂)).trace.filter isDelSuccess =
      [Event.postOk (finalText cfg)] ∧
    (∀ t x, Event.updateOk t x ∉ (runFrom cfg (Tid.main :: l₂)).trace) := by
  have hs1 : step cfg initState Tid.main =
      ⟨true, none, 0, 0, 1, [Event.finalized]⟩ := by
    show mainStep cfg initState = _
    unfold mainStep initState
    simp
  have hrun : runFrom cfg (Tid.main :: l₂) =
      run cfg l₂ (⟨true, none, 0, 0, 1, [Event.finalized]⟩ : BotState) := by
    show run cfg (Tid.main :: l₂) initState = _
    rw [run_cons, hs1]
  obtain ⟨d1, d2, d3, d4, d5, d6⟩ := run_after_final cfg l₂
    (⟨true, none, 0, 0, 1, [Event.finalized]⟩ : BotState) rfl (by decide) (by decide)
  rcases d5 rfl with ⟨hpc, htr⟩ | ⟨hpc, htr⟩
  · rw [hrun] at hc
    rw [hc.2.2] at hpc
    exact absurd hpc (by decide)
  · have htrace : (runFrom cfg (Tid.main :: l₂)).trace =
        [Event.finalized, Event.postOk (finalText cfg)] := by
      rw [hrun, htr,
        show (⟨true, none, 0, 0, 1, [Event.finalized]⟩ : BotState).ts =
          (none : Option Nat) from rfl,
        show deliver cfg (finalText cfg) none =
          [Event.postOk (finalText cfg)] from by unfold deliver; rw [if_pos hpost]]
      rfl
    refine ⟨?_, ?_, ?_, ?_⟩
    · rw [htrace]; simp
    · intro t; rw [htrace]; simp
    · rw [htrace]; simp [isDelSuccess]
    · intro t x; rw [htrace]; simp

/-- C5 witness: the fast-resolution scenario at a concrete request. -/
theorem c5_witness :
    Event.ephSent ∉ (runFrom cfgAll (Tid.main :: [Tid.main, Tid.eph, Tid.pl])).trace ∧
    (runFrom cfgAll (Tid.main :: [Tid.main, Tid.eph, Tid.pl])).trace.filter
      isDelSuccess = [Event.postOk (finalText cfgAll)] := by
  have h := c5_fast_resolution cfgAll [Tid.main, Tid.eph, Tid.pl] rfl (by decide)
  exact ⟨h.1, h.2.2.1⟩

/-- C6: when the placeholder timer completes (check, post, record) before the
finalizer's flag write and the ephemeral timer only runs afterwards, and the
placeholder post and the update succeed, the trace is exactly one placeholder
post followed by finalization and one in-place update of that exact recorded
handle with the final text: no ephemeral notice and no second message. -/
theorem c6_placeholder_update (cfg : Config) (n : Nat) (l₂ : List Tid)
    (h1 : cfg.hasChannel = true) (h2 : cfg.hasUser = true)
    (h3 : cfg.placOk = true) (h4 : cfg.updOk = true)
    (hc : Complete (runFrom cfg (List.replicate (n + 2) Tid.pl ++ Tid.main :: l₂))) :
    (runFrom cfg (List.replicate (n + 2) Tid.pl ++ Tid.main :: l₂)).trace =
      [Event.placePosted cfg.tsVal, Event.finalized,
        Event.updateOk cfg.tsVal (finalText cfg)] ∧
    Event.ephSent ∉
      (runFrom cfg (List.replicate (n + 2) Tid.pl ++ Tid.main :: l₂)).trace ∧
    (runFrom cfg (List.replicate (n + 2) Tid.pl ++ Tid.main :: l₂)).trace.filter
      isDelSuccess = [Event.updateOk cfg.tsVal (finalText cfg)] ∧
    (∀ x, Event.postOk x ∉
      (runFrom cfg (List.replicate (n + 2) Tid.pl ++ Tid.main :: l₂)).trace) := by
  have hpl := run_pl_first cfg h1 h2 h3 n
  have hs2 : step cfg (⟨false, some cfg.tsVal, 0, 2, 0,
      [Event.placePosted cfg.tsVal]⟩ : BotState) Tid.main =
      ⟨true, some cfg.tsVal, 0, 2, 1,
        [Event.placePosted cfg.tsVal, Event.finalized]⟩ := by
    show mainStep cfg _ = _
    unfold mainStep
    simp
  have hrun : runFrom cfg (List.replicate (n + 2) Tid.pl ++ Tid.main :: l₂) =
      run cfg l₂ (⟨true, some cfg.tsVal, 0, 2, 1,
        [Event.placePosted cfg.tsVal, Event.finalized]⟩ : BotState) := by
    show run cfg _ initState = _
    rw [run_append, run_cons, hpl, hs2]
  obtain ⟨d1, d2, d3, d4, d5, d6⟩ := run_after_final cfg l₂
    (⟨true, some cfg.tsVal, 0, 2, 1,
      [Event.placePosted cfg.tsVal, Event.finalized]⟩ : BotState)
    rfl (by simp) (by simp)
  rcases d5 rfl with ⟨hpc, htr⟩ | ⟨hpc, htr⟩
  · rw [hrun] at hc
    rw [hc.2.2] at hpc
    exact absurd hpc (by decide)
  · have htrace : (runFrom cfg (List.replicate (n + 2) Tid.pl ++ Tid.main :: l₂)).trace =
        [Event.placePosted cfg.tsVal, Event.finalized,
          Event.updateOk cfg.tsVal (finalText cfg)] := by
      rw [hrun, htr,
        show (⟨true, some cfg.tsVal, 0, 2, 1,
          [Event.placePosted cfg.tsVal, Event.finalized]⟩ : BotState).ts =
          some cfg.tsVal from rfl,
        show deliver cfg (finalText cfg) (some cfg.tsVal) =
          [Event.updateOk cfg.tsVal (finalText cfg)] from by
            simp [deliver, h4]]
      rfl
    refine ⟨htrace, ?_, ?_, ?_⟩
    · rw [htrace]; simp
    · rw [htrace]; simp [isDelSuccess]
    · intro x; rw [htrace]; simp

/-- C6 witness: the placeholder-then-update scenario at a concrete request. -/
theorem c6_witness :
    (runFrom cfgAll (List.replicate 2 Tid.pl ++ Tid.main :: [Tid.main, Tid.eph])).trace =
      [Event.placePosted 42, Event.finalized,
        Event.updateOk 42 (finalText cfgAll)] := by
  have h := c6_placeholder_update cfgAll 0 [Tid.main, Tid.eph]
    rfl rfl rfl rfl (by decide)
  exact h.1

/-- C2: along every complete run, the finalizer delivers the final answer at
most once; whenever some finalizer transport call succeeds it is delivered
exactly once (so never twice); every successful delivery carries exactly the
final text; and a successful update targets a placeholder that was actually
posted and recorded.  When every finalizer call fails nothing is delivered
(there is no successful delivery event). -/
theorem c2_exactly_once (cfg : Config) (sched : List Tid)
    (hc : Complete (runFrom cfg sched)) :
    ((runFrom cfg sched).trace.filter isDelSuccess).length ≤ 1 ∧
    ((∃ e ∈ (runFrom cfg sched).trace, isDelSuccess e = true) →
      ((runFrom cfg sched).trace.filter isDelSuccess).length = 1) ∧
    (∀ t x, Event.updateOk t x ∈ (runFrom cfg sched).trace →
      x = finalText cfg ∧ Event.placePosted t ∈ (runFrom cfg sched).trace) ∧
    (∀ x, Event.postOk x ∈ (runFrom cfg sched).trace → x = finalText cfg) := by
  obtain ⟨hA, hB, hC⟩ := run_inv2 cfg sched
  obtain ⟨ts0, hdel, hplace⟩ := hB hc.2.2
  have hfilter : (runFrom cfg sched).trace.filter isDelSuccess =
      (deliver cfg (finalText cfg) ts0).filter isDelSuccess := by
    rw [filter_success_delEvents]
    unfold delEvents at hdel ⊢
    rw [hdel]
  obtain ⟨f1, f2, f3, f4⟩ := deliver_succ_facts cfg (finalText cfg) ts0
  refine ⟨?_, ?_, ?_, ?_⟩
  · rw [hfilter]; exact f1
  · rintro ⟨e, he, hse⟩
    rw [hfilter]
    refine f2 e ?_ hse
    have hde : isDelEvent e = true := isDelSuccess_isDelEvent e hse
    have hmem : e ∈ delEvents (runFrom cfg sched).trace :=
      List.mem_filter.mpr ⟨he, hde⟩
    rw [hdel] at hmem
    exact hmem
  · intro t x hmem0
    have hmem : Event.updateOk t x ∈ delEvents (runFrom cfg sched).trace :=
      List.mem_filter.mpr ⟨hmem0, rfl⟩
    rw [hdel] at hmem
    obtain ⟨hx, hts⟩ := f3 t x hmem
    exact ⟨hx, hplace t hts⟩
  · intro x hmem0
    have hmem : Event.postOk x ∈ delEvents (runFrom cfg sched).trace :=
      List.mem_filter.mpr ⟨hmem0, rfl⟩
    rw [hdel] at hmem
    exact f4 x hmem

/-- C2 witness: the exactly-once property at a concrete request and
schedule. -/
theorem c2_witness :
    ((runFrom cfgAll schedFast).trace.filter isDelSuccess).length ≤ 1 :=
  (c2_exactly_once cfgAll schedFast (by decide)).1

/-- C8: when `ask` raises, the exception is caught at the computation
boundary and the fixed apology string is substituted for the answer; the
finalizer then runs its normal delivery block on that string, so every
delivered message carries the apology, and whenever some finalizer transport
call succeeds the user receives it exactly once. -/
theorem c8_ask_failure (cfg : Config) (sched : List Tid)
    (hask : cfg.askOk = false) (hc : Complete (runFrom cfg sched)) :
    finalText cfg = apologyText cfg.userName ∧
    (∃ ts0, delEvents (runFrom cfg sched).trace =
      deliver cfg (apologyText cfg.userName) ts0) ∧
    (∀ t x, Event.updateOk t x ∈ (runFrom cfg sched).trace →
      x = apologyText cfg.userName) ∧
    (∀ x, Event.postOk x ∈ (runFrom cfg sched).trace →
      x = apologyText cfg.userName) ∧
    ((∃ e ∈ (runFrom cfg sched).trace, isDelSuccess e = true) →
      ((runFrom cfg sched).trace.filter isDelSuccess).length = 1) := by
  have hft : finalText cfg = apologyText cfg.userName := by
    unfold finalText
    rw [hask]
    simp
  obtain ⟨hA, hB, hC⟩ := run_inv2 cfg sched
  obtain ⟨ts0, hdel, hplace⟩ := hB hc.2.2
  rw [hft] at hdel
  obtain ⟨f1, f2, f3, f4⟩ := deliver_succ_facts cfg (apologyText cfg.userName) ts0
  have hfilter : (runFrom cfg sched).trace.filter isDelSuccess =
      (deliver cfg (apologyText cfg.userName) ts0).filter isDelSuccess := by
    rw [filter_success_delEvents]
    unfold delEvents at hdel ⊢
    rw [hdel]
  refine ⟨hft, ⟨ts0, hdel⟩, ?_, ?_, ?_⟩
  · intro t x hmem0
    have hmem : Event.updateOk t x ∈ delEvents (runFrom cfg sched).trace :=
      List.mem_filter.mpr ⟨hmem0, rfl⟩
    rw [hdel] at hmem
    exact (f3 t x hmem).1
  · intro x hmem0
    have hmem : Event.postOk x ∈ delEvents (runFrom cfg sched).trace :=
      List.mem_filter.mpr ⟨hmem0, rfl⟩
    rw [hdel] at hmem
    exact f4 x hmem
  · rintro ⟨e, he, hse⟩
    rw [hfilter]
    refine f2 e ?_ hse
    have hde : isDelEvent e = true := isDelSuccess_isDelEvent e hse
    have hmem : e ∈ delEvents (runFrom cfg sched).trace :=
      List.mem_filter.mpr ⟨he, hde⟩
    rw [hdel] at hmem
    exact hmem

/-- C8 witness: the apology path at a concrete request whose `ask` raises. -/
theorem c8_witness :
    finalText cfgAskFail = apologyText "U8" :=
  (c8_ask_failure cfgAskFail schedFast rfl (by decide)).1

/-- C3, counterexample: running the finalizer logic a second time on the same
delivery state is not a no-op.  The code of lines 225-240 never reads the
`completed` flag, so with the flag already true the second invocation runs
the delivery block again: here two invocations produce two successful final
posts. -/
theorem c3_counterexample :
    (finalizer cfgAll ((finalizer cfgAll (false, none)).1)).2 ≠ [] ∧
    (((finalizer cfgAll (false, none)).2 ++
        (finalizer cfgAll ((finalizer cfgAll (false, none)).1)).2).filter
      isDelSuccess).length = 2 :=
  ⟨by decide, by decide⟩

/-- C3, amended: the finalizer logic never reads the incoming `completed`
flag, so a second invocation on the same delivery state repeats the whole
delivery unconditionally (re-updating the placeholder or posting a second
fresh final message) instead of being a no-op. -/
theorem c3_amended (cfg : Config) (st : Bool × Option Nat) :
    finalizer cfg ((finalizer cfg st).1) = finalizer cfg st ∧
    (finalizer cfg st).2 = deliver cfg (finalText cfg) st.2 ∧
    (finalizer cfg st).1 = (true, st.2) :=
  ⟨rfl, rfl, rfl⟩

/-- C4, counterexample: the claim that a failed fresh post is followed by no
further posting attempt is false for the direct-post branch.  When no
placeholder was recorded and the first threaded `say` (line 233) raises, the
handler's `except` block makes one more threaded `say` (line 238): the
delivery block contains a second posting attempt after the first failure. -/
theorem c4_counterexample :
    ¬ NoRetryAfterFreshFail (deliver cfgFailPosts "x" none) := by
  intro h
  have h2 := h [] [Event.postFail] (by decide)
  exact absurd h2 (by decide)

/-- C4, amended: only the fallback post (line 238) is terminal: if it fails,
the finalizer just logs and makes no further attempt (and raises nothing,
the block being total).  A failed direct post when no placeholder exists
(line 233) is instead followed by exactly one fallback post attempt. -/
theorem c4_amended (cfg : Config) (txt : String) (t : Nat) :
    (cfg.updOk = false → cfg.post2Ok = false →
      deliver cfg txt (some t) = [Event.updateFail t, Event.postFail]) ∧
    (cfg.postOk = false →
      deliver cfg txt none = Event.postFail ::
        (if cfg.post2Ok then [Event.postOk txt] else [Event.postFail])) := by
  constructor
  · intro h1 h2
    simp [deliver, h1, h2]
  · intro h1
    cases h2 : cfg.post2Ok <;> simp [deliver, h1, h2]

/-- C4 witness: the amended statement at a concrete failing transport. -/
theorem c4_amended_witness :
    deliver cfgFailPosts "x" (some 7) = [Event.updateFail 7, Event.postFail] ∧
    deliver cfgFailPosts "x" none = Event.postFail ::
      (if cfgFailPosts.post2Ok then [Event.postOk "x"] else [Event.postFail]) :=
  ⟨(c4_amended cfgFailPosts "x" 7).1 rfl rfl,
   (c4_amended cfgFailPosts "x" 7).2 rfl⟩

/-- C9: when the text matches a smalltalk pattern (`smalltalk_reply` returns
a nonempty canned reply) and the event carries channel and user, the handler
posts exactly one in-channel (unthreaded) mention-prefixed reply and returns:
no escalation timers are armed, no placeholder is posted, and `ask` is never
invoked. -/
theorem c9_smalltalk (cfg : Config) (text : String) (sched : List Tid)
    (h1 : smalltalkReply text ≠ "") (h2 : cfg.hasChannel = true)
    (h3 : cfg.hasUser = true) :
    handleMention cfg text true sched =
      ⟨[Event.chanPost (mention cfg.userName (smalltalkReply text))],
        false, false⟩ := by
  unfold handleMention
  have hb : (smalltalkReply text != "") = true := bne_iff_ne.mpr h1
  rw [hb, h2, h3]
  rfl

/-- C9 witness: the smalltalk fast path on the concrete greeting text. -/
theorem c9_witness :
    handleMention cfgAll "hello" true [] =
      ⟨[Event.chanPost (mention "U1" (smalltalkReply "hello"))],
        false, false⟩ :=
  c9_smalltalk cfgAll "hello" [] (by decide) rfl rfl

/-- Every file appended by the context-building loop is reached with an
accumulated length strictly below the budget, fits as is when it can, and is
otherwise sliced to exactly fill the budget. -/
theorem contextTrace_facts :
    ∀ (docs : List (List Char × List Char)) (acc : List Char),
      acc.length < maxChars →
      ∀ e ∈ contextTrace docs acc,
        e.accBefore < maxChars ∧
        (e.accBefore + e.orig.length ≤ maxChars → e.appended = e.orig) ∧
        (maxChars < e.accBefore + e.orig.length →
          e.appended = e.orig.take (maxChars - e.accBefore) ∧
          e.accBefore + e.appended.length = maxChars) := by
  intro docs
  induction docs with
  | nil =>
      intro acc _ e he
      simp [contextTrace] at he
  | cons d rest ih =>
      obtain ⟨fname, chunk⟩ := d
      intro acc hacc e he
      rw [contextTrace] at he
      rcases List.mem_cons.mp he with rfl | hmem
      · refine ⟨hacc, ?_, ?_⟩
        · intro hle
          dsimp only at hle
          show chunkTaken acc chunk = chunk
          unfold chunkTaken
          rw [if_neg (by omega)]
        · intro hgt
          dsimp only at hgt
          constructor
          · show chunkTaken acc chunk = chunk.take (maxChars - acc.length)
            unfold chunkTaken
            rw [if_pos hgt]
          · show acc.length + (chunkTaken acc chunk).length = maxChars
            unfold chunkTaken
            rw [if_pos hgt, List.length_take]
            omega
      · by_cases hstop : maxChars ≤ (ctxAppend acc fname chunk).length
        · rw [if_pos hstop] at hmem
          cases hmem
        · rw [if_neg hstop] at hmem
          exact ih (ctxAppend acc fname chunk) (by omega) e hmem

/-- The context built by the loop is the concatenation described by its
instrumented trace: every processed file contributes its full header, its
(possibly truncated) chunk, and a trailing newline. -/
theorem buildContext_trace :
    ∀ (docs : List (List Char × List Char)) (acc : List Char),
      buildContext docs acc = (contextTrace docs acc).foldl
        (fun s e => s ++ ctxHeader e.fname ++ e.appended ++ ['\n']) acc := by
  intro docs
  induction docs with
  | nil => intro acc; rfl
  | cons d rest ih =>
      obtain ⟨fname, chunk⟩ := d
      intro acc
      rw [buildContext, contextTrace]
      by_cases hstop : maxChars ≤ (ctxAppend acc fname chunk).length
      · rw [if_pos hstop, if_pos hstop]
        rfl
      · rw [if_neg hstop, if_neg hstop]
        rw [ih (ctxAppend acc fname chunk)]
        rfl

/-- C10: the combined context of `ask` is budgeted.  A file is only appended
while the accumulated context is strictly below 12000 characters; a chunk
whose addition would exceed 12000 characters of accumulated text is sliced
to exactly the remaining budget before being appended; and the per-file
header lines (and trailing newline) are appended in full, outside that
slicing computation, as the reconstruction of the built context from the
instrumented trace shows. -/
theorem c10_context_budget (docs : List (List Char × List Char)) :
    (∀ e ∈ contextTrace docs [],
      e.accBefore < maxChars ∧
      (e.accBefore + e.orig.length ≤ maxChars → e.appended = e.orig) ∧
      (maxChars < e.accBefore + e.orig.length →
        e.appended = e.orig.take (maxChars - e.accBefore) ∧
        e.accBefore + e.appended.length = maxChars)) ∧
    buildContext docs [] = (contextTrace docs []).foldl
      (fun s e => s ++ ctxHeader e.fname ++ e.appended ++ ['\n']) [] :=
  ⟨fun e he => contextTrace_facts docs [] (by decide) e he,
   buildContext_trace docs []⟩

/-- C10 witness: the budget facts at a concrete one-file document list. -/
theorem c10_witness :
    contextTrace [(['a'], ['x', 'y'])] [] =
      [⟨0, ['a'], ['x', 'y'], ['x', 'y']⟩] ∧
    (⟨0, ['a'], ['x', 'y'], ['x', 'y']⟩ : CtxStep).appended =
      (⟨0, ['a'], ['x', 'y'], ['x', 'y']⟩ : CtxStep).orig := by
  refine ⟨by decide, ?_⟩
  exact ((c10_context_budget [(['a'], ['x', 'y'])]).1
    ⟨0, ['a'], ['x', 'y'], ['x', 'y']⟩ (by decide)).2.1 (by decide)

end SlackBot
